import Mathlib

/-!
# Verification of the frog personal package manager

Shallow embedding of the package-lifecycle operations of the `frog`
repository, together with theorems settling the frozen claims about it.

The embedding covers:

* `parsePackageReference` (src/unnamed/part_012 `config-types.ts`, and the
  equivalent copy in `src/src/domain/errors/package-error.ts`);
* `compareVersions` (src/src/utils/version.ts);
* the dependency-injected core variant: `PackageInstaller`
  (src/unnamed/part_008), `PackageUpdater`
  (src/src/core/package/package-updater.ts) and `NodeFileSystem.symlink`
  (src/src/infrastructure/fs/node-file-system.ts);
* the monolithic `PackageManager` (src/src/package-manager.ts):
  `install`, `uninstall`, `createSymlinks`, `sync`, `syncBinaries`.

Filesystem state is modelled with finite association maps from path
strings to abstract directory contents and bin-directory entries; the
process-wide effects (logging, chmod permission bits, network downloads)
that no claim mentions are not part of the state.
-/

namespace Frog

/-! ## Association maps (string-keyed finite maps)

The JSON package database is an object keyed by strings, and the
filesystem directories relevant to the claims are flat collections of
named entries; both are modelled as association lists. -/

/-- A finite map from `String` keys to `α`, as an association list. -/
abbrev SMap (α : Type) : Type := List (String × α)

namespace SMap

/-- Lookup of the first binding of key `k`. -/
def mget {α : Type} (m : SMap α) (k : String) : Option α :=
  match m with
  | [] => none
  | (k', v) :: rest => if k' = k then some v else mget rest k

/-- Replace the binding of `k` (or append it if absent). -/
def mset {α : Type} (m : SMap α) (k : String) (v : α) : SMap α :=
  match m with
  | [] => [(k, v)]
  | (k', v') :: rest => if k' = k then (k, v) :: rest else (k', v') :: mset rest k v

/-- Delete every binding of `k`. -/
def mdel {α : Type} (m : SMap α) (k : String) : SMap α :=
  m.filter (fun p => p.1 ≠ k)

theorem mget_mset_self {α : Type} (m : SMap α) (k : String) (v : α) :
    (m.mset k v).mget k = some v := by
  induction m with
  | nil => simp [mset, mget]
  | cons p rest ih =>
    obtain ⟨k', v'⟩ := p
    by_cases h : k' = k <;> simp [mset, mget, h, ih]

theorem mget_mset_ne {α : Type} (m : SMap α) {k k' : String} (v : α) (h : k' ≠ k) :
    (m.mset k v).mget k' = m.mget k' := by
  induction m with
  | nil => simp [mset, mget, Ne.symm h]
  | cons p rest ih =>
    obtain ⟨a, b⟩ := p
    by_cases ha : a = k
    · subst ha
      simp [mset, mget, Ne.symm h]
    · simp [mset, mget, ha, ih]

theorem mget_mdel_self {α : Type} (m : SMap α) (k : String) :
    (m.mdel k).mget k = none := by
  induction m with
  | nil => simp [mdel, mget]
  | cons p rest ih =>
    obtain ⟨a, b⟩ := p
    by_cases ha : a = k
    · simpa [mdel, List.filter_cons, ha] using ih
    · simpa [mdel, List.filter_cons, ha, mget] using ih

theorem mget_mdel_ne {α : Type} (m : SMap α) {k k' : String} (h : k' ≠ k) :
    (m.mdel k).mget k' = m.mget k' := by
  induction m with
  | nil => simp [mdel, mget]
  | cons p rest ih =>
    obtain ⟨a, b⟩ := p
    by_cases ha : a = k
    · subst ha
      simpa [mdel, List.filter_cons, mget, Ne.symm h] using ih
    · by_cases hb : a = k'
      · subst hb
        simp [mdel, List.filter_cons, ha, mget, ih]
      · simpa [mdel, List.filter_cons, ha, mget, hb] using ih

end SMap

/-! ## Character-level string splitting

JavaScript's `String.prototype.split` with a one-character separator:
`"".split(c)` is `[""]`, and a separator at the string's edge produces an
empty segment.  Both `parsePackageReference` (split on `':'`) and
`compareVersions` (split on `'.'`) use it. -/

/-- Split a character list at every occurrence of `sep`
(JS `String.prototype.split` with a single-character separator). -/
def splitSep (sep : Char) : List Char → List (List Char)
  | [] => [[]]
  | c :: cs =>
    match splitSep sep cs with
    | [] => if c = sep then [[], []] else [[c]]
    | r :: rs => if c = sep then [] :: r :: rs else (c :: r) :: rs

theorem splitSep_ne_nil (sep : Char) (l : List Char) : splitSep sep l ≠ [] := by
  cases l with
  | nil => simp [splitSep]
  | cons c cs =>
    simp only [splitSep]
    cases splitSep sep cs with
    | nil => by_cases h : c = sep <;> simp [h]
    | cons r rs => by_cases h : c = sep <;> simp [h]

/-- The number of segments is the number of separators plus one. -/
theorem splitSep_length (sep : Char) (l : List Char) :
    (splitSep sep l).length = l.count sep + 1 := by
  induction l with
  | nil => simp [splitSep]
  | cons c cs ih =>
    have hcount : (c :: cs).count sep = cs.count sep + if c = sep then 1 else 0 := by
      simp [List.count_cons]
    rcases h : splitSep sep cs with _ | ⟨r, rs⟩
    · exact absurd h (splitSep_ne_nil sep cs)
    · rw [h] at ih
      simp only [splitSep, h, hcount]
      by_cases hc : c = sep
      · simp only [if_pos hc, List.length_cons]
        simp only [List.length_cons] at ih
        omega
      · simp only [if_neg hc, List.length_cons]
        simp only [List.length_cons] at ih
        omega

/-- Split a string at every occurrence of `sep`. -/
def strSplit (s : String) (sep : Char) : List String :=
  (splitSep sep s.data).map (fun l => String.mk l)

theorem strSplit_length (s : String) (sep : Char) :
    (strSplit s sep).length = s.data.count sep + 1 := by
  simp [strSplit, splitSep_length]

/-! ## Package reference parsing

`parsePackageReference` from `config-types.ts` (src/unnamed/part_012);
the copy in `src/src/domain/errors/package-error.ts` is identical up to
the error class it throws (`RegistryError` with code `NO_PROVIDER`). -/

/-- A parsed package reference (`zPackageReference` in `config-types.ts`):
both the provider and the package name are strings. -/
structure PackageReference where
  provider : String
  name : String
deriving DecidableEq, Repr

/-- The errors `parsePackageReference` can throw.  The source throws
`Error('No provider specified and no default provider configured')`
(respectively `RegistryError` with code `NO_PROVIDER`). -/
inductive ParseRefError
  | noProvider
deriving DecidableEq, Repr

/-- `parsePackageReference(reference, defaultProvider?)`:
split on `':'`; exactly two parts yield `{provider, name}`; otherwise
the default provider is used with the *entire* raw string as name.  The
source guards with `!defaultProvider`, which is JS falsiness: both an
absent default provider and the empty string throw the no-provider
error. -/
def parsePackageReference (reference : String) (defaultProvider : Option String) :
    Except ParseRefError PackageReference :=
  match strSplit reference ':' with
  | [p, n] => .ok { provider := p, name := n }
  | _ =>
    match defaultProvider with
    | none => .error .noProvider
    | some d =>
      if d = "" then .error .noProvider
      else .ok { provider := d, name := reference }

end Frog

namespace Frog

/-- **C5.** `parsePackageReference "alice:eza"` with no default provider
yields provider `alice`, name `eza`; `parsePackageReference "eza"` with
default provider `alice` yields the same; `parsePackageReference "eza"`
with no default provider fails. -/
theorem parsePackageReference_examples :
    parsePackageReference "alice:eza" none =
      .ok { provider := "alice", name := "eza" } ∧
    parsePackageReference "eza" (some "alice") =
      .ok { provider := "alice", name := "eza" } ∧
    parsePackageReference "eza" none = .error .noProvider := by
  refine ⟨?_, ?_, ?_⟩ <;> rfl

/-- **C6, counterexample.** The raw string `"alice:"` splits into exactly
two parts, so the parser returns a reference whose `name` is the empty
string: the invariant "every returned reference has a non-empty `name`"
fails on the code. -/
theorem parsePackageReference_empty_name :
    parsePackageReference "alice:" none =
      .ok { provider := "alice", name := "" } := by
  rfl

/-- **C6, amended.** If the raw string is non-empty and, in the
exactly-one-colon case, the part after the colon is non-empty, then every
reference `parsePackageReference` returns has a non-empty name; and for
every raw string containing no colon, parsing with no default provider
fails with the no-provider error. -/
theorem parsePackageReference_amended :
    (∀ (raw : String) (dp : Option String) (ref : PackageReference),
      raw ≠ "" →
      (∀ p n, strSplit raw ':' = [p, n] → n ≠ "") →
      parsePackageReference raw dp = .ok ref → ref.name ≠ "") ∧
    (∀ raw : String, raw.data.count ':' = 0 →
      parsePackageReference raw none = .error .noProvider) := by
  constructor
  · intro raw dp ref hraw hsegs hok
    unfold parsePackageReference at hok
    rcases hsplit : strSplit raw ':' with _ | ⟨p, rest⟩
    · rw [hsplit] at hok
      cases dp with
      | none => cases hok
      | some d =>
        dsimp only at hok
        by_cases hde : d = ""
        · rw [if_pos hde] at hok
          cases hok
        · rw [if_neg hde] at hok
          simp only [Except.ok.injEq] at hok
          subst hok
          exact hraw
    · rcases rest with _ | ⟨n, rest'⟩
      · rw [hsplit] at hok
        cases dp with
        | none => cases hok
        | some d =>
          dsimp only at hok
          by_cases hde : d = ""
          · rw [if_pos hde] at hok
            cases hok
          · rw [if_neg hde] at hok
            simp only [Except.ok.injEq] at hok
            subst hok
            exact hraw
      · rcases rest' with _ | ⟨x, rest''⟩
        · rw [hsplit] at hok
          simp only [Except.ok.injEq] at hok
          subst hok
          exact hsegs p n hsplit
        · rw [hsplit] at hok
          cases dp with
          | none => cases hok
          | some d =>
            dsimp only at hok
            by_cases hde : d = ""
            · rw [if_pos hde] at hok
              cases hok
            · rw [if_neg hde] at hok
              simp only [Except.ok.injEq] at hok
              subst hok
              exact hraw
  · intro raw hc
    have hlen : (strSplit raw ':').length = 1 := by
      rw [strSplit_length, hc]
    unfold parsePackageReference
    rcases hsplit : strSplit raw ':' with _ | ⟨p, rest⟩
    · rfl
    · rcases rest with _ | ⟨n, rest'⟩
      · rfl
      · rw [hsplit] at hlen
        simp at hlen

/-- Witness for the amended C6 at concrete inputs. -/
theorem parsePackageReference_amended_witness :
    "alice:eza" ≠ "" ∧
    ({ provider := "alice", name := "eza" } : PackageReference).name ≠ "" ∧
    "eza".data.count ':' = 0 ∧
    parsePackageReference "eza" none = .error .noProvider := by
  refine ⟨by decide, ?_, by decide, parsePackageReference_amended.2 "eza" (by decide)⟩
  refine parsePackageReference_amended.1 "alice:eza" none _ (by decide) ?_ rfl
  intro p n h
  have he : strSplit "alice:eza" ':' = ["alice", "eza"] := rfl
  rw [he] at h
  simp only [List.cons.injEq, and_true] at h
  rw [← h.2]
  decide

/-- **C10.** A raw string containing two or more colons is never split:
with a default provider configured (a non-empty string — the source's
`!defaultProvider` check is JS falsiness) the parser returns that
provider with the entire raw string (colons included) as the name, and
with no default provider it fails, exactly as for a colon-free
string. -/
theorem parsePackageReference_multicolon (raw : String) (d : String)
    (h : 2 ≤ raw.data.count ':') (hd : d ≠ "") :
    parsePackageReference raw (some d) = .ok { provider := d, name := raw } ∧
    parsePackageReference raw none = .error .noProvider := by
  have hlen : (strSplit raw ':').length = raw.data.count ':' + 1 :=
    strSplit_length raw ':'
  have hlen3 : 3 ≤ (strSplit raw ':').length := by omega
  unfold parsePackageReference
  rcases hsplit : strSplit raw ':' with _ | ⟨p, _ | ⟨n, _ | ⟨x, rest⟩⟩⟩ <;>
    rw [hsplit] at hlen3 <;> simp at hlen3 ⊢ <;> simp [hd]

/-- Witness for C10 at the concrete input `"a:b:c"`. -/
theorem parsePackageReference_multicolon_witness :
    2 ≤ "a:b:c".data.count ':' ∧ ("alice" : String) ≠ "" ∧
    parsePackageReference "a:b:c" (some "alice") =
      .ok { provider := "alice", name := "a:b:c" } := by
  exact ⟨by decide, by decide,
    (parsePackageReference_multicolon "a:b:c" "alice" (by decide) (by decide)).1⟩

/-! ## Version comparison (`src/src/utils/version.ts`)

`compareVersions` splits both strings on `'.'`, converts each segment
with JavaScript `Number`, and walks the indices up to the longer length,
substituting `0` for a missing (or falsy, i.e. `NaN` or `0`) segment.
`Number` on a plain digit string is its decimal value; on a string with
any other character the result is `NaN`, which the `|| 0` fallback turns
into `0`.  Exotic numeric syntax accepted by `Number` (`"1e3"`, hex,
leading whitespace) is outside every claim's dotted-numeric input class
and is mapped to `0` here as well. -/

/-- Decimal value of a digit segment, as an exact integer. -/
def decimalValue (l : List Char) : Nat :=
  l.foldl (fun a c => a * 10 + (c.toNat - 48)) 0

/-- The least scaling exponent for float64 rounding: starting from `e`,
the first exponent with `n / 2^e < 2^53`.  The fuel caps the search at
an exponent beyond the largest finite float64; capped inputs overflow
to infinity regardless. -/
def floatExpAux (n : Nat) : Nat → Nat → Nat
  | e, 0 => e
  | e, fuel + 1 => if n / 2 ^ e < 2 ^ 53 then e else floatExpAux n (e + 1) fuel

/-- Round a nonnegative integer to the nearest float64: round half to
even at 53 significant bits, `none` for overflow to infinity.  This is
the value JavaScript's `Number` yields on a decimal digit string; below
`2^53` every integer is exact. -/
def roundFloat64 (n : Nat) : Option Nat :=
  if n < 2 ^ 53 then some n
  else
    let e := floatExpAux n 1 1100
    let q := n / 2 ^ e
    let r := n % 2 ^ e
    let half := 2 ^ (e - 1)
    let q' := if half < r ∨ (r = half ∧ q % 2 = 1) then q + 1 else q
    let v := q' * 2 ^ e
    if v < 2 ^ 1024 then some v else none

/-- A JavaScript numeric segment value after the `|| 0` fallback: a
finite float64 integer (rounding an integer at 53 bits yields an
integer) or `Infinity`. -/
inductive JsNum
  | fin (n : Nat)
  | inf
deriving DecidableEq, Repr

/-- The `<` comparison on segment values (`Infinity` is above every
finite value and not below itself). -/
def jlt : JsNum → JsNum → Bool
  | .fin a, .fin b => decide (a < b)
  | .fin _, .inf => true
  | .inf, _ => false

/-- Segment value: `Number` of a digit-only segment — its float64
rounding, possibly `Infinity` — otherwise `NaN`, which the
`aParts[i] || 0` fallback turns into `0`. -/
def jsSegVal (l : List Char) : JsNum :=
  if l.all Char.isDigit then
    match roundFloat64 (decimalValue l) with
    | some v => .fin v
    | none => .inf
  else .fin 0

/-- The numeric segment list of a version string (`normalize` in the
source: `v.split('.').map(Number)`, with the `|| 0` fallback applied). -/
def versionParts (s : String) : List JsNum :=
  (splitSep '.' s.data).map jsSegVal

/-- The index loop of `compareVersions` once the left list is
exhausted: every left segment reads as `0`. -/
def cmpZeros : List JsNum → Int
  | [] => 0
  | b :: bs => if jlt (.fin 0) b then -1 else cmpZeros bs

/-- The index loop of `compareVersions`: compare position by position,
reading `0` past the end of either list; the first difference decides. -/
def cmpSegs : List JsNum → List JsNum → Int
  | [], bs => cmpZeros bs
  | a :: as, bs =>
    if jlt (bs.headD (.fin 0)) a then 1
    else if jlt a (bs.headD (.fin 0)) then -1
    else cmpSegs as bs.tail

/-- `compareVersions(a, b)` from `src/src/utils/version.ts`. -/
def compareVersions (a b : String) : Int :=
  cmpSegs (versionParts a) (versionParts b)

/-- A dotted-numeric version string: every `'.'`-separated segment is a
non-empty string of decimal digits. -/
def isDottedNumeric (s : String) : Bool :=
  (splitSep '.' s.data).all (fun seg => !seg.isEmpty && seg.all Char.isDigit)

/-- Every segment's integer value is below `2^53` — exactly
representable in the float64 that `Number` produces. -/
def segBelow53 (s : String) : Bool :=
  (splitSep '.' s.data).all (fun seg => decide (decimalValue seg < 2 ^ 53))

/-- Pad a segment list with trailing zeros up to length `n`. -/
def padTo (n : Nat) (l : List Nat) : List Nat :=
  l ++ List.replicate (n - l.length) 0

/-- Left-to-right comparison of two equal-length segment lists. -/
def lexCompare : List Nat → List Nat → Int
  | [], _ => 0
  | _ :: _, [] => 0
  | a :: as, b :: bs => if a > b then 1 else if a < b then -1 else lexCompare as bs

/-- The spec's description of version comparison: "dotted numeric
segments compared left-to-right as integers; missing trailing segments
treated as zero". -/
def specCompareVersions (a b : String) : Int :=
  let as := (splitSep '.' a.data).map decimalValue
  let bs := (splitSep '.' b.data).map decimalValue
  let n := max as.length bs.length
  lexCompare (padTo n as) (padTo n bs)

theorem jlt_irrefl (a : JsNum) : jlt a a = false := by
  cases a <;> simp [jlt]

theorem jlt_bot (a : JsNum) : jlt a (.fin 0) = false := by
  cases a <;> simp [jlt]

theorem jlt_asymm {a b : JsNum} (h : jlt a b = true) : jlt b a = false := by
  cases a <;> cases b <;> simp_all [jlt] <;> omega

theorem jlt_antisymm {a b : JsNum} (h1 : jlt a b = false) (h2 : jlt b a = false) :
    a = b := by
  cases a <;> cases b <;> simp_all [jlt] <;> omega

theorem jle_trans {a b c : JsNum} (h1 : jlt a b = false) (h2 : jlt b c = false) :
    jlt a c = false := by
  cases a <;> cases b <;> cases c <;> simp_all [jlt] <;> omega

theorem cmpZeros_fin_eq_lex (bs : List Nat) :
    cmpZeros (bs.map .fin) = lexCompare (List.replicate bs.length 0) bs := by
  induction bs with
  | nil => rfl
  | cons b bs ih =>
    by_cases hb : 0 < b
    · simp [cmpZeros, lexCompare, List.replicate_succ, jlt, hb, Nat.not_lt_zero]
    · simp [cmpZeros, lexCompare, List.replicate_succ, jlt, hb, Nat.not_lt_zero, ih]

theorem cmpTail_fin_eq_lex (as : List Nat) :
    cmpSegs (as.map .fin) [] = lexCompare as (List.replicate as.length 0) := by
  induction as with
  | nil => rfl
  | cons a as ih =>
    by_cases ha : 0 < a
    · simp [cmpSegs, lexCompare, List.replicate_succ, jlt, ha]
    · have ha0 : a = 0 := by omega
      subst ha0
      simp [cmpSegs, lexCompare, List.replicate_succ, jlt, ih]

theorem cmpSegs_fin_eq_lexCompare (as bs : List Nat) :
    cmpSegs (as.map .fin) (bs.map .fin) =
      lexCompare (padTo (max as.length bs.length) as)
        (padTo (max as.length bs.length) bs) := by
  induction as generalizing bs with
  | nil =>
    have h1 : padTo (max ([] : List Nat).length bs.length) ([] : List Nat)
        = List.replicate bs.length 0 := by
      simp [padTo]
    have h2 : padTo (max ([] : List Nat).length bs.length) bs = bs := by
      simp [padTo]
    rw [h1, h2]
    exact cmpZeros_fin_eq_lex bs
  | cons a as ih =>
    rcases bs with _ | ⟨b, bs⟩
    · have h1 : padTo (max (a :: as).length ([] : List Nat).length) (a :: as)
          = a :: as := by
        simp [padTo]
      have h2 : padTo (max (a :: as).length ([] : List Nat).length) ([] : List Nat)
          = List.replicate (a :: as).length 0 := by
        simp [padTo]
      rw [h1, h2]
      exact cmpTail_fin_eq_lex (a :: as)
    · have hcount : max (a :: as).length (b :: bs).length - (a :: as).length
          = max as.length bs.length - as.length := by
        simp only [List.length_cons]
        omega
      have hcount' : max (a :: as).length (b :: bs).length - (b :: bs).length
          = max as.length bs.length - bs.length := by
        simp only [List.length_cons]
        omega
      have hpadl : padTo (max (a :: as).length (b :: bs).length) (a :: as)
          = a :: padTo (max as.length bs.length) as := by
        simp only [padTo, List.cons_append]
        rw [hcount]
      have hpadr : padTo (max (a :: as).length (b :: bs).length) (b :: bs)
          = b :: padTo (max as.length bs.length) bs := by
        simp only [padTo, List.cons_append]
        rw [hcount']
      rw [hpadl, hpadr]
      simp only [List.map_cons, cmpSegs, List.headD_cons, List.tail_cons,
        lexCompare, jlt]
      by_cases h1 : b < a
      · simp [h1]
      · by_cases h2 : a < b
        · simp [h1, h2]
        · simp [h1, h2, ih]

theorem jsSegVal_small {l : List Char} (hd : l.all Char.isDigit = true)
    (hsm : decimalValue l < 2 ^ 53) : jsSegVal l = .fin (decimalValue l) := by
  unfold jsSegVal roundFloat64
  rw [if_pos hd, if_pos hsm]

theorem versionParts_small {s : String} (hdot : isDottedNumeric s = true)
    (hsm : segBelow53 s = true) :
    versionParts s = ((splitSep '.' s.data).map decimalValue).map .fin := by
  unfold versionParts
  rw [List.map_map]
  apply List.map_congr_left
  intro seg hseg
  unfold isDottedNumeric at hdot
  unfold segBelow53 at hsm
  rw [List.all_eq_true] at hdot hsm
  have h1 := hdot seg hseg
  have h2 := hsm seg hseg
  simp only [Bool.and_eq_true, decide_eq_true_eq] at h1 h2
  show jsSegVal seg = JsNum.fin (decimalValue seg)
  exact jsSegVal_small h1.2 h2

set_option maxRecDepth 4000 in
/-- **C7, counterexample.** `Number` yields float64: the dotted-numeric
strings `"9007199254740993"` (2^53 + 1) and `"9007199254740992"` (2^53)
parse to the *same* float (2^53 + 1 is not representable; rounding half
to even lands on 2^53), so the program returns `0` — but comparing
segments as exact integers gives `1`.  The claimed universal refinement
fails on the code. -/
theorem compareVersions_float_counterexample :
    isDottedNumeric "9007199254740993" = true ∧
    isDottedNumeric "9007199254740992" = true ∧
    compareVersions "9007199254740993" "9007199254740992" = 0 ∧
    specCompareVersions "9007199254740993" "9007199254740992" = 1 := by
  refine ⟨by decide, by decide, by decide, by decide⟩

/-- **C7, amended.** The three concrete comparisons from the spec hold,
and the refinement holds on dotted-numeric strings whose segments are
below `2^53` (exactly representable in the float64 that `Number`
yields): there `compareVersions` computes exactly the spec's
left-to-right integer comparison of segments with missing trailing
segments treated as zero. -/
theorem compareVersions_spec :
    compareVersions "1.2.0" "1.2" = 0 ∧
    compareVersions "2.0.0" "1.9.9" = 1 ∧
    compareVersions "1.0" "1.0.1" = -1 ∧
    ∀ a b : String, isDottedNumeric a = true → isDottedNumeric b = true →
      segBelow53 a = true → segBelow53 b = true →
      compareVersions a b = specCompareVersions a b := by
  refine ⟨by decide, by decide, by decide, ?_⟩
  intro a b ha hb hsa hsb
  unfold compareVersions specCompareVersions
  rw [versionParts_small ha hsa, versionParts_small hb hsb]
  exact cmpSegs_fin_eq_lexCompare _ _

/-- Witness for C7's quantified part at concrete inputs satisfying both
hypotheses. -/
theorem compareVersions_spec_witness :
    isDottedNumeric "1.10" = true ∧ isDottedNumeric "1.9.0" = true ∧
    segBelow53 "1.10" = true ∧ segBelow53 "1.9.0" = true ∧
    compareVersions "1.10" "1.9.0" = specCompareVersions "1.10" "1.9.0" := by
  exact ⟨by decide, by decide, by decide, by decide,
    compareVersions_spec.2.2.2 "1.10" "1.9.0"
      (by decide) (by decide) (by decide) (by decide)⟩

theorem cmpSegs_nil_antisym (bs : List JsNum) : cmpSegs bs [] = -cmpZeros bs := by
  induction bs with
  | nil => simp [cmpSegs, cmpZeros]
  | cons b bs ih =>
    by_cases hb : jlt (.fin 0) b = true
    · simp [cmpSegs, cmpZeros, hb, jlt_bot]
    · simp [cmpSegs, cmpZeros, hb, jlt_bot, ih]

theorem cmpSegs_antisym (as bs : List JsNum) : cmpSegs as bs = -cmpSegs bs as := by
  induction as generalizing bs with
  | nil =>
    rw [show cmpSegs ([] : List JsNum) bs = cmpZeros bs from rfl,
      cmpSegs_nil_antisym bs]
    ring
  | cons a as ih =>
    rcases bs with _ | ⟨b, bs⟩
    · rw [cmpSegs_nil_antisym (a :: as)]
      rfl
    · simp only [cmpSegs, List.headD_cons, List.tail_cons]
      by_cases h1 : jlt b a = true
      · have h2 : jlt a b = false := jlt_asymm h1
        simp [h1, h2]
      · by_cases h2 : jlt a b = true
        · have h1' : jlt b a = false := jlt_asymm h2
          simp [h1', h2]
        · simp [h1, h2, ih bs]

/-- One unfolding step of the comparison loop, uniform in whether the
lists are exhausted: a missing head reads as `0`. -/
theorem cmpSegs_step (as bs : List JsNum) :
    cmpSegs as bs =
      if jlt (bs.headD (.fin 0)) (as.headD (.fin 0)) then 1
      else if jlt (as.headD (.fin 0)) (bs.headD (.fin 0)) then -1
      else cmpSegs as.tail bs.tail := by
  rcases as with _ | ⟨a, as⟩
  · rcases bs with _ | ⟨b, bs⟩
    · simp [cmpSegs, cmpZeros, jlt_irrefl]
    · simp [cmpSegs, cmpZeros, jlt_bot]
  · rfl

theorem cmpSegs_trans_bounded :
    ∀ (n : Nat) (as bs cs : List JsNum),
      as.length + bs.length + cs.length ≤ n →
      0 ≤ cmpSegs as bs → 0 ≤ cmpSegs bs cs → 0 ≤ cmpSegs as cs := by
  intro n
  induction n with
  | zero =>
    intro as bs cs h _ _
    have ha : as = [] := by
      cases as with
      | nil => rfl
      | cons a as' =>
        exfalso
        have h1 : 1 ≤ (a :: as').length := by simp
        omega
    have hc : cs = [] := by
      cases cs with
      | nil => rfl
      | cons c cs' =>
        exfalso
        have h1 : 1 ≤ (c :: cs').length := by simp
        omega
    subst ha; subst hc
    simp [cmpSegs, cmpZeros]
  | succ n ih =>
    intro as bs cs h h1 h2
    by_cases hnil : as = [] ∧ bs = [] ∧ cs = []
    · obtain ⟨ha, hb, hc⟩ := hnil
      subst ha; subst hb; subst hc
      simp [cmpSegs, cmpZeros]
    · rw [cmpSegs_step] at h1 h2 ⊢
      have hxy : jlt (as.headD (.fin 0)) (bs.headD (.fin 0)) = false := by
        by_contra hlt
        rw [Bool.not_eq_false] at hlt
        have hyx := jlt_asymm hlt
        rw [if_neg (by rw [hyx]; exact Bool.false_ne_true), if_pos hlt] at h1
        omega
      have hyz : jlt (bs.headD (.fin 0)) (cs.headD (.fin 0)) = false := by
        by_contra hlt
        rw [Bool.not_eq_false] at hlt
        have hzy := jlt_asymm hlt
        rw [if_neg (by rw [hzy]; exact Bool.false_ne_true), if_pos hlt] at h2
        omega
      by_cases hzx : jlt (cs.headD (.fin 0)) (as.headD (.fin 0)) = true
      · rw [if_pos hzx]
        omega
      · have hzx' : jlt (cs.headD (.fin 0)) (as.headD (.fin 0)) = false := by
          rwa [Bool.not_eq_true] at hzx
        have hxz : jlt (as.headD (.fin 0)) (cs.headD (.fin 0)) = false :=
          jle_trans hxy hyz
        have heq : as.headD (.fin 0) = cs.headD (.fin 0) := jlt_antisymm hxz hzx'
        have hyx : jlt (bs.headD (.fin 0)) (as.headD (.fin 0)) = false := by
          rw [heq]
          exact hyz
        have hzy : jlt (cs.headD (.fin 0)) (bs.headD (.fin 0)) = false := by
          rw [← heq]
          exact hxy
        rw [if_neg (by rw [hzx']; exact Bool.false_ne_true), if_neg (by rw [hxz]; exact Bool.false_ne_true)]
        rw [if_neg (by rw [hyx]; exact Bool.false_ne_true), if_neg (by rw [hxy]; exact Bool.false_ne_true)] at h1
        rw [if_neg (by rw [hzy]; exact Bool.false_ne_true), if_neg (by rw [hyz]; exact Bool.false_ne_true)] at h2
        refine ih as.tail bs.tail cs.tail ?_ h1 h2
        have ht1 : as.tail.length = as.length - 1 := List.length_tail as
        have ht2 : bs.tail.length = bs.length - 1 := List.length_tail bs
        have ht3 : cs.tail.length = cs.length - 1 := List.length_tail cs
        have hone : 1 ≤ as.length ∨ 1 ≤ bs.length ∨ 1 ≤ cs.length := by
          rcases as with _ | ⟨a, as'⟩
          · rcases bs with _ | ⟨b, bs'⟩
            · rcases cs with _ | ⟨c, cs'⟩
              · exact absurd ⟨rfl, rfl, rfl⟩ hnil
              · right; right; simp
            · right; left; simp
          · left; simp
        omega

/-- **C8.** On dotted-numeric version strings `compareVersions` is
antisymmetric (`compareVersions a b = -compareVersions b a`) and the
induced order is transitive (results `≥ 0` compose). -/
theorem compareVersions_antisym_trans :
    (∀ a b : String, isDottedNumeric a = true → isDottedNumeric b = true →
      compareVersions a b = -compareVersions b a) ∧
    (∀ a b c : String,
      isDottedNumeric a = true → isDottedNumeric b = true →
      isDottedNumeric c = true →
      0 ≤ compareVersions a b → 0 ≤ compareVersions b c →
      0 ≤ compareVersions a c) := by
  constructor
  · intro a b _ _
    exact cmpSegs_antisym _ _
  · intro a b c _ _ _ h1 h2
    exact cmpSegs_trans_bounded
      ((versionParts a).length + (versionParts b).length + (versionParts c).length)
      _ _ _ le_rfl h1 h2

/-- Witness for C8 at concrete dotted-numeric inputs. -/
theorem compareVersions_antisym_trans_witness :
    isDottedNumeric "2.1" = true ∧ isDottedNumeric "2.0.5" = true ∧
    compareVersions "2.1" "2.0.5" = -compareVersions "2.0.5" "2.1" ∧
    0 ≤ compareVersions "2.1" "1.7" := by
  refine ⟨by decide, by decide,
    compareVersions_antisym_trans.1 "2.1" "2.0.5" (by decide) (by decide), ?_⟩
  exact compareVersions_antisym_trans.2 "2.1" "2.0.5" "1.7"
    (by decide) (by decide) (by decide) (by decide) (by decide)


/-! ## The dependency-injected core variant

`PackageInstaller` (src/unnamed/part_008), `PackageUpdater`
(src/src/core/package/package-updater.ts) and `PackageRepository`
(src/unnamed/part_002), over `NodeFileSystem`
(src/src/infrastructure/fs/node-file-system.ts).

State: a map from directory paths to abstract directory contents (a
directory's bytes are one opaque blob, so `fs.copy` is assignment and
"restored byte-for-byte" is equality of blobs), a map of personal-bin
entries keyed by their full path, and the package database map. -/

/-- A `package.json` record (`Package` in `domain/models`, the
`packageSchema`/`zPackageConfig` shape). -/
structure Package where
  name : String
  version : String
  provider : Option String
  binaries : List String
  installScript : Option String
  url : Option String
deriving DecidableEq, Repr

/-- The `PackageReference` used by the core operations
(`domain/models`): the provider is optional (`reference.provider ?`
checks appear in `getPackageDirectory`). -/
structure CorePackageReference where
  provider : Option String
  name : String
deriving DecidableEq, Repr

/-- The paths from `Config` that the core operations consult. -/
structure CoreCfg where
  packageRoot : String
  binariesPath : String
  goinfre : String
deriving DecidableEq, Repr

/-- An entry of the personal bin directory.  For a symlink, `live`
records whether its referent exists: `fsPromises.stat` (used by
`NodeFileSystem.exists` and `NodeFileSystem.symlink`) follows symlinks,
so it succeeds exactly on live links and its result never satisfies
`isSymbolicLink()`. -/
inductive BinEntry
  | sym (target : String) (live : Bool)
  | file
deriving DecidableEq, Repr

/-- `NodeFileSystem.exists` applied to a bin entry: `stat` follows
symlinks, so a dangling symlink reports as absent. -/
def entryExists : Option BinEntry → Bool
  | none => false
  | some (.sym _ live) => live
  | some .file => true

/-- State touched by the core install/update operations. -/
structure CoreState where
  dirs : SMap String
  bin : SMap BinEntry
  db : SMap Package
deriving DecidableEq, Repr

/-- The error conditions of the core operations, by source error code. -/
inductive CoreErr
  | pkgNotFound (name : String)
  | binaryExists (binary : String)
  | symlinkTargetExists (target : String)
  | symlinkError (target : String)
  | installFailed (pkg : String) (cause : CoreErr)
  | updateFailed (pkg : String) (cause : CoreErr)
deriving DecidableEq, Repr

/-- `getPackageDirectory`: `provider_name` when a provider is set
(JS truthiness: the empty string is falsy), else `name`. -/
def refDirectoryName (r : CorePackageReference) : String :=
  match r.provider with
  | some p => if p.isEmpty then r.name else p ++ "_" ++ r.name
  | none => r.name

/-- `join(config.packageRoot, directoryName)`. -/
def getPackageDirectory (cfg : CoreCfg) (r : CorePackageReference) : String :=
  cfg.packageRoot ++ "/" ++ refDirectoryName r

/-- `getBackupDirectory`: the package directory suffixed with
`_backup_<version>`. -/
def getBackupDirectory (cfg : CoreCfg) (r : CorePackageReference) (package_ : Package) :
    String :=
  getPackageDirectory cfg r ++ "_backup_" ++ package_.version

/-- `PackageRepository.createKey`: the JS template literal
`` `${reference.provider}:${reference.name}` `` (an absent provider
stringifies to `"undefined"`). -/
def createKey (r : CorePackageReference) : String :=
  (match r.provider with
   | some p => p
   | none => "undefined") ++ ":" ++ r.name

/-- `NodeFileSystem.symlink(source, target)`.  The source checks the
target with `stat`, which *follows* symlinks: a live symlink therefore
reports `isSymbolicLink() = false` and the call throws
`SYMLINK_TARGET_EXISTS` instead of replacing the link; a dangling
symlink passes the `exists` check as absent and the raw `symlink`
syscall then fails with `EEXIST` (wrapped as `SYMLINK_ERROR`). -/
def fsSymlink (st : CoreState) (source target : String) : Except CoreErr CoreState :=
  match st.bin.mget target with
  | none => .ok { st with bin := st.bin.mset target (.sym source true) }
  | some (.sym _ true) => .error (.symlinkTargetExists target)
  | some (.sym _ false) => .error (.symlinkError target)
  | some .file => .error (.symlinkTargetExists target)

/-- The symlink loop of `PackageInstaller.createSymlinks`: for each
binary, `target = join(config.binariesPath, binary)`; an existing target
without `force` throws `BINARY_EXISTS`, otherwise `fs.symlink` runs (the
`chmod(source, 0o755)` permission bit is outside the modelled state). -/
def installerCreateSymlinks (cfg : CoreCfg) (st : CoreState) (binaries : List String)
    (packageDirectory : String) (force : Bool) : CoreState × Option CoreErr :=
  match binaries with
  | [] => (st, none)
  | binary :: rest =>
    let source := packageDirectory ++ "/" ++ binary
    let target := cfg.binariesPath ++ "/" ++ binary
    if entryExists (st.bin.mget target) && !force then
      (st, some (.binaryExists binary))
    else
      match fsSymlink st source target with
      | .error e => (st, some e)
      | .ok st' => installerCreateSymlinks cfg st' rest packageDirectory force

/-- `PackageInstaller.install(package_, reference, force)`:
`prepareDirectory` (mkdir -p), the `downloadPackage` and
`runInstallScript` bodies are empty stubs in the source, then
`createSymlinks`; any error is wrapped in `PackageInstallError`. -/
def installerInstall (cfg : CoreCfg) (st : CoreState) (package_ : Package)
    (reference : CorePackageReference) (force : Bool) : CoreState × Option CoreErr :=
  let packageDirectory := getPackageDirectory cfg reference
  let st1 :=
    if (st.dirs.mget packageDirectory).isSome then st
    else { st with dirs := st.dirs.mset packageDirectory "" }
  match installerCreateSymlinks cfg st1 package_.binaries packageDirectory force with
  | (st2, some e) => (st2, some (.installFailed package_.name e))
  | (st2, none) => (st2, none)

/-- The install step of `PackageUpdater.performUpdate`, with failure
injection: `.run` executes the embedded `PackageInstaller.install`;
`.fail err pdAfter binAfter` simulates `installer.install` throwing
`err` after having left the package directory at `pdAfter` and the
personal bin map at `binAfter` (the installer writes nothing else: it
touches only the package directory and bin entries). -/
inductive InstallStep
  | run
  | fail (err : CoreErr) (pdAfter : Option String) (binAfter : SMap BinEntry)
deriving DecidableEq, Repr

/-- `PackageUpdater.handleUpdateFailure`: remove the (partial) package
directory, restore it from the backup if the backup exists, restore the
database record, and rethrow the error. -/
def handleUpdateFailure (cfg : CoreCfg) (st : CoreState)
    (reference : CorePackageReference) (currentPackage : Package) (err : CoreErr) :
    CoreState × Option CoreErr :=
  let packageDirectory := getPackageDirectory cfg reference
  let backupDirectory := getBackupDirectory cfg reference currentPackage
  let st1 := { st with dirs := st.dirs.mdel packageDirectory }
  match st1.dirs.mget backupDirectory with
  | some backup =>
    let st2 := { st1 with dirs := st1.dirs.mset packageDirectory backup }
    let st3 := { st2 with db := st2.db.mset (createKey reference) currentPackage }
    (st3, some err)
  | none => (st1, some err)

/-- `PackageUpdater.update(reference, newPackage, options)` together
with `performUpdate` and `createBackup`: look up the current record
(`PKG_NOT_FOUND` if absent), no-op when `compareVersions` says equal and
`force` is unset, otherwise back up the current directory, remove it,
run the install step, save the new record and drop the backup; on an
install failure the error is wrapped (`UPDATE_FAILED`) and
`handleUpdateFailure` rolls back. -/
def updaterUpdate (cfg : CoreCfg) (st : CoreState) (reference : CorePackageReference)
    (newPackage : Package) (force : Bool) (step : InstallStep) :
    CoreState × Option CoreErr :=
  match st.db.mget (createKey reference) with
  | none => (st, some (.pkgNotFound reference.name))
  | some currentPackage =>
    if compareVersions currentPackage.version newPackage.version = 0 ∧ force = false then
      (st, none)
    else
      let packageDirectory := getPackageDirectory cfg reference
      let backupDirectory := getBackupDirectory cfg reference currentPackage
      let st1 :=
        match st.dirs.mget packageDirectory with
        | some d => { st with dirs := st.dirs.mset backupDirectory d }
        | none => st
      let st2 := { st1 with dirs := st1.dirs.mdel packageDirectory }
      match step with
      | .fail err pdAfter binAfter =>
        let st3 := { st2 with
          dirs :=
            match pdAfter with
            | some d => st2.dirs.mset packageDirectory d
            | none => st2.dirs.mdel packageDirectory,
          bin := binAfter }
        handleUpdateFailure cfg st3 reference currentPackage
          (.updateFailed reference.name err)
      | .run =>
        match installerInstall cfg st2 newPackage reference force with
        | (st3, some e) =>
          handleUpdateFailure cfg st3 reference currentPackage
            (.updateFailed reference.name e)
        | (st3, none) =>
          let st4 := { st3 with db := st3.db.mset (createKey reference) newPackage }
          let st5 := { st4 with dirs := st4.dirs.mdel backupDirectory }
          (st5, none)

theorem getBackupDirectory_ne (cfg : CoreCfg) (r : CorePackageReference) (p : Package) :
    getBackupDirectory cfg r p ≠ getPackageDirectory cfg r := by
  unfold getBackupDirectory
  intro h
  have hlen := congrArg String.length h
  rw [String.length_append, String.length_append] at hlen
  have h8 : ("_backup_" : String).length = 8 := by decide
  omega

theorem handleUpdateFailure_restores (cfg : CoreCfg) (st : CoreState)
    (reference : CorePackageReference) (currentPackage : Package) (err : CoreErr)
    (d0 : String)
    (hbk : st.dirs.mget (getBackupDirectory cfg reference currentPackage) = some d0) :
    handleUpdateFailure cfg st reference currentPackage err =
      ({ dirs := (st.dirs.mdel (getPackageDirectory cfg reference)).mset
            (getPackageDirectory cfg reference) d0,
         bin := st.bin,
         db := st.db.mset (createKey reference) currentPackage }, some err) := by
  have h1 : (st.dirs.mdel (getPackageDirectory cfg reference)).mget
      (getBackupDirectory cfg reference currentPackage) = some d0 := by
    rw [SMap.mget_mdel_ne _ (getBackupDirectory_ne cfg reference currentPackage), hbk]
  simp only [handleUpdateFailure]
  rw [h1]

/-- **C3.** `PackageUpdater.update` with `force = false` and a new
version that compares equal (`compareVersions = 0`) to the installed
record's version is a complete no-op: the returned state is the input
state (database record and installed files untouched) and no error is
reported, whatever the install step would have done. -/
theorem updaterUpdate_noop (cfg : CoreCfg) (st : CoreState)
    (reference : CorePackageReference) (newPackage currentPackage : Package)
    (step : InstallStep)
    (hdb : st.db.mget (createKey reference) = some currentPackage)
    (hver : compareVersions currentPackage.version newPackage.version = 0) :
    updaterUpdate cfg st reference newPackage false step = (st, none) := by
  unfold updaterUpdate
  rw [hdb]
  simp [hver]

/-- **C1.** If the install phase of `PackageUpdater.update` fails after
the backup of the existing package directory was created — whatever
partial package-directory contents and bin entries the failed install
left behind — then after `update` returns, the package directory holds
its original contents byte-for-byte, the database again maps the
package's key to its original record, and the wrapped error is
reported. -/
theorem updaterUpdate_rollback (cfg : CoreCfg) (st : CoreState)
    (reference : CorePackageReference) (currentPackage newPackage : Package)
    (d0 : String) (err : CoreErr) (pdAfter : Option String) (binAfter : SMap BinEntry)
    (hdb : st.db.mget (createKey reference) = some currentPackage)
    (hdir : st.dirs.mget (getPackageDirectory cfg reference) = some d0)
    (hver : compareVersions currentPackage.version newPackage.version ≠ 0) :
    (updaterUpdate cfg st reference newPackage false
        (.fail err pdAfter binAfter)).1.dirs.mget (getPackageDirectory cfg reference)
      = some d0 ∧
    (updaterUpdate cfg st reference newPackage false
        (.fail err pdAfter binAfter)).1.db.mget (createKey reference)
      = some currentPackage ∧
    (updaterUpdate cfg st reference newPackage false
        (.fail err pdAfter binAfter)).2
      = some (.updateFailed reference.name err) := by
  have hne := getBackupDirectory_ne cfg reference currentPackage
  unfold updaterUpdate
  rw [hdb]
  simp only []
  rw [if_neg (fun hc => hver hc.1)]
  rw [hdir]
  simp only []
  rcases pdAfter with _ | d
  · have hbk : ((((st.dirs.mset (getBackupDirectory cfg reference currentPackage) d0).mdel
        (getPackageDirectory cfg reference))).mdel
        (getPackageDirectory cfg reference)).mget
        (getBackupDirectory cfg reference currentPackage) = some d0 := by
      rw [SMap.mget_mdel_ne _ hne, SMap.mget_mdel_ne _ hne, SMap.mget_mset_self]
    rw [handleUpdateFailure_restores cfg _ reference currentPackage _ d0 hbk]
    refine ⟨?_, ?_, rfl⟩
    · exact SMap.mget_mset_self _ _ _
    · exact SMap.mget_mset_self _ _ _
  · have hbk : ((((st.dirs.mset (getBackupDirectory cfg reference currentPackage) d0).mdel
        (getPackageDirectory cfg reference))).mset
        (getPackageDirectory cfg reference) d).mget
        (getBackupDirectory cfg reference currentPackage) = some d0 := by
      rw [SMap.mget_mset_ne _ _ hne, SMap.mget_mdel_ne _ hne, SMap.mget_mset_self]
    rw [handleUpdateFailure_restores cfg _ reference currentPackage _ d0 hbk]
    refine ⟨?_, ?_, rfl⟩
    · exact SMap.mget_mset_self _ _ _
    · exact SMap.mget_mset_self _ _ _

/-! Concrete fixtures for the core-variant witnesses. -/

/-- A user configuration with the canonical paths. -/
def exCfg : CoreCfg :=
  { packageRoot := "/sgoinfre/me/packages", binariesPath := "/home/me/bin",
    goinfre := "/goinfre/me/packages" }

/-- The reference `alice:eza`. -/
def exRef : CorePackageReference := { provider := some "alice", name := "eza" }

/-- The installed record at version `1.2.0`. -/
def exCur : Package :=
  { name := "eza", version := "1.2.0", provider := some "alice",
    binaries := ["eza"], installScript := none, url := none }

/-- A candidate record at version `1.2` (compares equal to `1.2.0`). -/
def exNew12 : Package :=
  { name := "eza", version := "1.2", provider := some "alice",
    binaries := ["eza"], installScript := none, url := none }

/-- A candidate record at version `2.0.0`. -/
def exPkg2 : Package :=
  { name := "eza", version := "2.0.0", provider := some "alice",
    binaries := ["eza"], installScript := none, url := none }

/-- A state with `alice:eza` installed at `1.2.0`. -/
def exSt : CoreState :=
  { dirs := [("/sgoinfre/me/packages/alice_eza", "v1-bytes")], bin := [],
    db := [("alice:eza", exCur)] }

/-- Witness for C3: updating `alice:eza` from `1.2.0` to `1.2` with
`force = false` returns the state unchanged. -/
theorem updaterUpdate_noop_witness :
    updaterUpdate exCfg exSt exRef exNew12 false .run = (exSt, none) :=
  updaterUpdate_noop exCfg exSt exRef exNew12 exCur .run (by decide) (by decide)

/-- Witness for C1: an injected install failure at version `2.0.0`
rolls the directory contents and the database record back. -/
theorem updaterUpdate_rollback_witness :
    (updaterUpdate exCfg exSt exRef exPkg2 false
        (.fail (.pkgNotFound "download") (some "partial-bytes") [])).1.dirs.mget
        (getPackageDirectory exCfg exRef) = some "v1-bytes" ∧
    (updaterUpdate exCfg exSt exRef exPkg2 false
        (.fail (.pkgNotFound "download") (some "partial-bytes") [])).1.db.mget
        (createKey exRef) = some exCur ∧
    (updaterUpdate exCfg exSt exRef exPkg2 false
        (.fail (.pkgNotFound "download") (some "partial-bytes") [])).2
      = some (.updateFailed "eza" (.pkgNotFound "download")) :=
  updaterUpdate_rollback exCfg exSt exRef exCur exPkg2 "v1-bytes"
    (.pkgNotFound "download") (some "partial-bytes") []
    (by decide) (by decide) (by decide)

/-- A state whose personal bin already holds a live symlink named after
the package's binary `eza` (pointing into another package). -/
def exConflictSt : CoreState :=
  { dirs := [],
    bin := [("/home/me/bin/eza", .sym "/sgoinfre/me/packages/old_eza/eza" true)],
    db := [("alice:eza", exCur)] }

/-- **C2, evaluated at the failing input.** With a conflicting live
symlink and `force = false`, `PackageInstaller.install` fails with the
`BINARY_EXISTS` error and the database is untouched — as the claim says.
But the identical call with `force = true` does *not* succeed: because
`NodeFileSystem.symlink` checks the existing target with `stat` (which
follows symlinks) instead of `lstat`, the live symlink reports
`isSymbolicLink() = false` and the call throws `SYMLINK_TARGET_EXISTS`
instead of replacing the link. -/
theorem installerInstall_symlink_conflict :
    (installerInstall exCfg exConflictSt exPkg2 exRef false).2
      = some (.installFailed "eza" (.binaryExists "eza")) ∧
    (installerInstall exCfg exConflictSt exPkg2 exRef false).1.db
      = exConflictSt.db ∧
    (installerInstall exCfg exConflictSt exPkg2 exRef true).2
      = some (.installFailed "eza" (.symlinkTargetExists "/home/me/bin/eza")) := by
  refine ⟨by decide, by decide, by decide⟩

/-! ## The monolithic `PackageManager` (src/src/package-manager.ts)

`install`, `uninstall`, `createSymlinks`, `sync` and `syncBinaries`.

The state has the persistent package root (`/sgoinfre/<user>/packages`),
the fast-scratch mirror root (`/goinfre/<user>/packages`), the personal
bin directory (`~/bin`, entries keyed by `basename(binary)`) and the
package database.  A package directory is a `package.json` record plus a
set of file paths; its bytes are part of that value, so `cpSync` is
assignment.  A bin symlink stores which root, directory and file it
points to, so `existsSync` (which follows symlinks) can be computed from
the state, and the textual target path can be rendered for the claims
about path prefixes. -/

/-- The two storage roots a monolithic symlink can point into. -/
inductive MRoot
  | sg
  | go
deriving DecidableEq, Repr

/-- An entry of the personal bin directory: a symlink to
`<root>/<dirName>/<file>`, or a regular file. -/
inductive MBinEntry
  | sym (root : MRoot) (dirName : String) (file : String)
  | file
deriving DecidableEq, Repr

/-- A package directory: its `package.json` (if parseable) and the set
of file paths it contains (relative to the directory). -/
structure PDir where
  config : Option Package
  files : List String
deriving DecidableEq, Repr

/-- State of the monolithic `PackageManager`: persistent root, mirror
root, personal bin and package database. -/
structure MState where
  sg : SMap PDir
  go : SMap PDir
  bin : SMap MBinEntry
  db : SMap Package
deriving DecidableEq, Repr

/-- The errors surfaced by the modelled monolithic operations. -/
inductive MErr
  | configLoadFailed
  | pkgNotFoundInDb (name : String)
deriving DecidableEq, Repr

/-- `path.basename`: the part after the last `/`. -/
def basename (p : String) : String :=
  String.mk ((splitSep '/' p.data).getLastD [])

/-- `join('/sgoinfre', username, 'packages')`. -/
def sgoinfrePath (u : String) : String := "/sgoinfre/" ++ u ++ "/packages"

/-- `join('/goinfre', username, 'packages')`. -/
def goinfrePath (u : String) : String := "/goinfre/" ++ u ++ "/packages"

/-- `fs.Stats` liveness of a bin entry: a regular file exists; a symlink
"exists" for the `existsSync`/`statSync` family exactly when its
referent does. -/
def mEntryLive (st : MState) : MBinEntry → Bool
  | .file => true
  | .sym root dirName f =>
    match (match root with
           | .sg => st.sg.mget dirName
           | .go => st.go.mget dirName) with
    | some d => decide (f ∈ d.files)
    | none => false

/-- `existsSync(join(binPath, basename(binary)))`. -/
def mExistsBin (st : MState) (linkName : String) : Bool :=
  match st.bin.mget linkName with
  | some e => mEntryLive st e
  | none => false

/-- A resolved package source (`PackageSource` after `resolvePackage`):
the provider username for a provider source, `basename(location)`, and
the directory content that materializing the source (copy, or download
plus tar extraction) produces. -/
inductive MSource
  | provider (user : String) (srcName : String) (dir : PDir)
  | localPath (srcName : String) (dir : PDir)
  | remote (srcName : String) (dir : PDir)
deriving DecidableEq, Repr

/-- `source.provider` after JS truthiness (the empty string is falsy). -/
def msProv : MSource → Option String
  | .provider u _ _ => if u.isEmpty then none else some u
  | _ => none

/-- `basename(source.location)`. -/
def msName : MSource → String
  | .provider _ n _ => n
  | .localPath n _ => n
  | .remote n _ => n

/-- The materialized directory content of the source. -/
def msDir : MSource → PDir
  | .provider _ _ d => d
  | .localPath _ d => d
  | .remote _ d => d

/-- `packageDirectoryName`: `provider_basename` for a provider source,
else `basename`. -/
def mInstallDirName (src : MSource) : String :=
  match msProv src with
  | some p => p ++ "_" ++ msName src
  | none => msName src

/-- The symlink loop of `PackageManager.createSymlinks`: per binary,
skip a binary missing from the package directory; an existing link
without `force` is logged and skipped (the loop continues); with
`force` the link is replaced; a dangling symlink passes the
`existsSync` check as absent, so `symlinkSync` fails with `EEXIST`,
which is logged and the loop continues with no change. -/
def mCreateSymlinks (st : MState) (binaries : List String) (dirName : String)
    (force : Bool) : MState :=
  match binaries with
  | [] => st
  | binary :: rest =>
    let linkName := basename binary
    let binaryOk :=
      match st.sg.mget dirName with
      | some d => decide (binary ∈ d.files)
      | none => false
    if binaryOk then
      if mExistsBin st linkName then
        if force then
          mCreateSymlinks
            { st with bin := st.bin.mset linkName (.sym .sg dirName binary) }
            rest dirName force
        else
          mCreateSymlinks st rest dirName force
      else
        match st.bin.mget linkName with
        | some _ => mCreateSymlinks st rest dirName force
        | none =>
          mCreateSymlinks
            { st with bin := st.bin.mset linkName (.sym .sg dirName binary) }
            rest dirName force
    else
      mCreateSymlinks st rest dirName force

/-- The record `install` ends up with: for a provider source the loaded
config with `config.provider = source.provider` written into it,
otherwise the loaded config itself. -/
def mInstallConfig (src : MSource) (config : Package) : Package :=
  match msProv src with
  | some p => { config with provider := some p }
  | none => config

/-- The state after `install` materialized the source into
`join(sgoinfrePath, dirName)` (`cpSync`, or `mkdir` plus download plus
tar extraction, modelled as producing the source's directory content)
and — for a provider source — rewrote the copied `package.json` with the
provider field. -/
def mInstallStaged (st : MState) (src : MSource) (config : Package) : MState :=
  match msProv src with
  | some _ =>
    let sg1 := st.sg.mset (mInstallDirName src) (msDir src)
    let d2 : PDir :=
      { config := some (mInstallConfig src config), files := (msDir src).files }
    { st with sg := sg1.mset (mInstallDirName src) d2 }
  | none => { st with sg := st.sg.mset (mInstallDirName src) (msDir src) }

/-- The database key `install` stores a record under:
`provider:name` for a provider source, else the bare `name`. -/
def mInstallKey (src : MSource) (config : Package) : String :=
  match msProv src with
  | some p => p ++ ":" ++ config.name
  | none => config.name

/-- `PackageManager.install` after `resolvePackage` succeeded:
materialize the source, load the copied `package.json` (abort, keeping
the copied directory, when it is missing or invalid), write the
provider into the config for provider sources, run the install script
(modelled as succeeding), create the symlinks and save the database
record. -/
def mInstall (st : MState) (src : MSource) (force : Bool) : MState × Option MErr :=
  match (msDir src).config with
  | none =>
    ({ st with sg := st.sg.mset (mInstallDirName src) (msDir src) },
      some .configLoadFailed)
  | some config =>
    let st3 := mCreateSymlinks (mInstallStaged st src config)
      (mInstallConfig src config).binaries (mInstallDirName src) force
    ({ st3 with db := st3.db.mset (mInstallKey src config) (mInstallConfig src config) },
      none)

/-- The symlink-removal loop of `PackageManager.uninstall`: per binary,
`unlinkSync(join(binPath, basename(binary)))` when `existsSync` reports
it (a dangling symlink is skipped). -/
def mRemoveBinaryLinks (st : MState) : List String → MState
  | [] => st
  | binary :: rest =>
    let linkName := basename binary
    if mExistsBin st linkName then
      mRemoveBinaryLinks { st with bin := st.bin.mdel linkName } rest
    else
      mRemoveBinaryLinks st rest

/-- `PackageManager.uninstall(packageName)`: look the record up
(abort when absent), remove the binary symlinks, `rmSync` the package's
directories under both roots (keyed by the database key, `force: true`),
delete the record and save. -/
def mUninstall (st : MState) (packageName : String) : MState × Option MErr :=
  match st.db.mget packageName with
  | none => (st, some (.pkgNotFoundInDb packageName))
  | some config =>
    let st1 := mRemoveBinaryLinks st config.binaries
    let st2 := { st1 with sg := st1.sg.mdel packageName, go := st1.go.mdel packageName }
    ({ st2 with db := st2.db.mdel packageName }, none)

/-- The per-binary loop of `PackageManager.syncBinaries`: remove an
existing link (`existsSync` then `unlinkSync`) and symlink to
`join(destinationPath, binary)` in the mirror; for a dangling existing
symlink the removal is skipped and `symlinkSync` fails with `EEXIST`,
logged, loop continues with no change. -/
def mSyncBinaries (st : MState) (binaries : List String) (destName : String) : MState :=
  match binaries with
  | [] => st
  | binary :: rest =>
    let linkName := basename binary
    match st.bin.mget linkName with
    | some e =>
      if mEntryLive st e then
        mSyncBinaries
          { st with bin := st.bin.mset linkName (.sym .go destName binary) }
          rest destName
      else
        mSyncBinaries st rest destName
    | none =>
      mSyncBinaries
        { st with bin := st.bin.mset linkName (.sym .go destName binary) }
        rest destName

/-- One package of `PackageManager.sync`: skip (with a warning) when
`join(sgoinfrePath, name)` does not exist, else copy it to
`join(goinfrePath, name)` and re-point the binary symlinks at the
mirrored copy. -/
def mSyncOne (st : MState) (name : String) (config : Package) : MState :=
  match st.sg.mget name with
  | none => st
  | some d =>
    mSyncBinaries { st with go := st.go.mset name d } config.binaries name

/-- The per-package loop of `sync` over the database entries. -/
def mSyncList (st : MState) : List (String × Package) → MState
  | [] => st
  | (name, config) :: rest => mSyncList (mSyncOne st name config) rest

/-- `PackageManager.sync()`: clear and recreate the mirror root, then
process every database entry. -/
def mSync (st : MState) : MState :=
  mSyncList { st with go := [] } st.db

/-- Boolean list-prefix test (`isPrefixOf`). -/
def listPrefix : List Char → List Char → Bool
  | [], _ => true
  | _ :: _, [] => false
  | a :: as, b :: bs => a == b && listPrefix as bs

/-- `p` is a textual prefix of `s`. -/
def strPrefix (p s : String) : Bool := listPrefix p.data s.data

/-- The textual target path of a bin entry, for user `u`
(what `readlink` would print). -/
def linkTargetPath (u : String) : MBinEntry → Option String
  | .sym .sg dirName f => some (sgoinfrePath u ++ "/" ++ dirName ++ "/" ++ f)
  | .sym .go dirName f => some (goinfrePath u ++ "/" ++ dirName ++ "/" ++ f)
  | .file => none

theorem mEntryLive_bin_irrel (st : MState) (b : SMap MBinEntry) (e : MBinEntry) :
    mEntryLive { st with bin := b } e = mEntryLive st e := by
  cases e with
  | file => rfl
  | sym r dn f => cases r <;> rfl

theorem mInstallConfig_binaries (src : MSource) (config : Package) :
    (mInstallConfig src config).binaries = config.binaries := by
  unfold mInstallConfig
  rcases msProv src with _ | p <;> rfl

theorem mInstallStaged_fields (st : MState) (src : MSource) (config : Package) :
    (mInstallStaged st src config).bin = st.bin ∧
    (mInstallStaged st src config).go = st.go ∧
    (mInstallStaged st src config).db = st.db := by
  unfold mInstallStaged
  rcases msProv src with _ | p <;> exact ⟨rfl, rfl, rfl⟩

theorem mInstallStaged_sg (st : MState) (src : MSource) (config : Package)
    (hconf : (msDir src).config = some config) :
    (mInstallStaged st src config).sg.mget (mInstallDirName src)
      = some { config := some (mInstallConfig src config),
               files := (msDir src).files } := by
  have hmd : msDir src = { config := some config, files := (msDir src).files } := by
    rw [← hconf]
  unfold mInstallStaged
  rcases hp : msProv src with _ | p
  · have hic : mInstallConfig src config = config := by
      unfold mInstallConfig
      rw [hp]
    simp only [hp]
    rw [SMap.mget_mset_self, hic]
    exact congrArg some hmd
  · simp only [hp]
    rw [SMap.mget_mset_self]

theorem mCreateSymlinks_sg :
    ∀ (bs : List String) (st : MState) (dn : String) (force : Bool),
      (mCreateSymlinks st bs dn force).sg = st.sg := by
  intro bs
  induction bs with
  | nil => intro st dn force; rfl
  | cons b0 rest ih =>
    intro st dn force
    simp only [mCreateSymlinks]
    repeat' split
    all_goals exact ih _ _ _

theorem mCreateSymlinks_go :
    ∀ (bs : List String) (st : MState) (dn : String) (force : Bool),
      (mCreateSymlinks st bs dn force).go = st.go := by
  intro bs
  induction bs with
  | nil => intro st dn force; rfl
  | cons b0 rest ih =>
    intro st dn force
    simp only [mCreateSymlinks]
    repeat' split
    all_goals exact ih _ _ _

theorem mCreateSymlinks_db :
    ∀ (bs : List String) (st : MState) (dn : String) (force : Bool),
      (mCreateSymlinks st bs dn force).db = st.db := by
  intro bs
  induction bs with
  | nil => intro st dn force; rfl
  | cons b0 rest ih =>
    intro st dn force
    simp only [mCreateSymlinks]
    repeat' split
    all_goals exact ih _ _ _

theorem mCreateSymlinks_shape :
    ∀ (bs : List String) (st : MState) (dn : String) (force : Bool) (d : PDir)
      (k : String),
      st.sg.mget dn = some d →
      (∀ e, st.bin.mget k = some e →
        ∃ b', e = .sym .sg dn b' ∧ b' ∈ d.files) →
      ∀ e, (mCreateSymlinks st bs dn force).bin.mget k = some e →
        ∃ b', e = .sym .sg dn b' ∧ b' ∈ d.files := by
  intro bs
  induction bs with
  | nil => intro st dn force d k _ hk; exact hk
  | cons b0 rest ih =>
    intro st dn force d k hsg hk
    have hwrite : ∀ v : MBinEntry, (∃ b', v = .sym .sg dn b' ∧ b' ∈ d.files) →
        ∀ e, ({ st with bin := st.bin.mset (basename b0) v } : MState).bin.mget k
          = some e → ∃ b', e = .sym .sg dn b' ∧ b' ∈ d.files := by
      intro v hv e he
      simp only at he
      by_cases hkb : basename b0 = k
      · subst hkb
        rw [SMap.mget_mset_self] at he
        cases he
        exact hv
      · rw [SMap.mget_mset_ne _ _ (fun hh => hkb hh.symm)] at he
        exact hk e he
    simp only [mCreateSymlinks]
    by_cases hok : (match st.sg.mget dn with
        | some d' => decide (b0 ∈ d'.files)
        | none => false) = true
    · rw [if_pos hok]
      have hmem : b0 ∈ d.files := by
        rw [hsg] at hok
        simpa using hok
      by_cases hE : mExistsBin st (basename b0) = true
      · rw [if_pos hE]
        by_cases hf : force = true
        · rw [if_pos hf]
          exact ih _ dn force d k hsg (hwrite _ ⟨b0, rfl, hmem⟩)
        · rw [if_neg hf]
          exact ih st dn force d k hsg hk
      · rw [if_neg hE]
        rcases hbk : st.bin.mget (basename b0) with _ | e0
        · exact ih _ dn force d k hsg (hwrite _ ⟨b0, rfl, hmem⟩)
        · exact ih st dn force d k hsg hk
    · rw [if_neg hok]
      exact ih st dn force d k hsg hk

theorem mRemoveBinaryLinks_sg :
    ∀ (bs : List String) (st : MState), (mRemoveBinaryLinks st bs).sg = st.sg := by
  intro bs
  induction bs with
  | nil => intro st; rfl
  | cons b0 rest ih =>
    intro st
    simp only [mRemoveBinaryLinks]
    split
    · exact ih _
    · exact ih st

theorem mRemoveBinaryLinks_go :
    ∀ (bs : List String) (st : MState), (mRemoveBinaryLinks st bs).go = st.go := by
  intro bs
  induction bs with
  | nil => intro st; rfl
  | cons b0 rest ih =>
    intro st
    simp only [mRemoveBinaryLinks]
    split
    · exact ih _
    · exact ih st

theorem mRemoveBinaryLinks_db :
    ∀ (bs : List String) (st : MState), (mRemoveBinaryLinks st bs).db = st.db := by
  intro bs
  induction bs with
  | nil => intro st; rfl
  | cons b0 rest ih =>
    intro st
    simp only [mRemoveBinaryLinks]
    split
    · exact ih _
    · exact ih st

theorem mRemoveBinaryLinks_none :
    ∀ (bs : List String) (st : MState) (k : String),
      st.bin.mget k = none → (mRemoveBinaryLinks st bs).bin.mget k = none := by
  intro bs
  induction bs with
  | nil => intro st k hk; exact hk
  | cons b0 rest ih =>
    intro st k hk
    simp only [mRemoveBinaryLinks]
    split
    · apply ih
      simp only
      by_cases hkb : k = basename b0
      · subst hkb
        exact SMap.mget_mdel_self _ _
      · rw [SMap.mget_mdel_ne _ hkb]
        exact hk
    · exact ih st k hk

theorem mRemoveBinaryLinks_removes :
    ∀ (bs : List String) (st : MState),
      (∀ b ∈ bs, ∀ e, st.bin.mget (basename b) = some e → mEntryLive st e = true) →
      ∀ b ∈ bs, (mRemoveBinaryLinks st bs).bin.mget (basename b) = none := by
  intro bs
  induction bs with
  | nil => intro st _ b hb; cases hb
  | cons b0 rest ih =>
    intro st hlive b hb
    simp only [mRemoveBinaryLinks]
    by_cases hE : mExistsBin st (basename b0) = true
    · rw [if_pos hE]
      have hrest : ∀ c ∈ rest, ∀ e,
          ({ st with bin := st.bin.mdel (basename b0) } : MState).bin.mget (basename c)
            = some e →
          mEntryLive { st with bin := st.bin.mdel (basename b0) } e = true := by
        intro c hc e he
        simp only at he
        rw [mEntryLive_bin_irrel]
        by_cases hkb : basename c = basename b0
        · rw [hkb, SMap.mget_mdel_self] at he
          cases he
        · rw [SMap.mget_mdel_ne _ hkb] at he
          exact hlive c (List.mem_cons_of_mem _ hc) e he
      rcases List.mem_cons.mp hb with hb0 | hbr
      · subst hb0
        apply mRemoveBinaryLinks_none
        simp only
        exact SMap.mget_mdel_self _ _
      · exact ih _ hrest b hbr
    · rw [if_neg hE]
      have hnone : st.bin.mget (basename b0) = none := by
        rcases hg : st.bin.mget (basename b0) with _ | e
        · rfl
        · exfalso
          have hl := hlive b0 (List.mem_cons_self _ _) e hg
          unfold mExistsBin at hE
          rw [hg] at hE
          exact hE hl
      rcases List.mem_cons.mp hb with hb0 | hbr
      · subst hb0
        exact mRemoveBinaryLinks_none rest st _ hnone
      · exact ih st (fun c hc => hlive c (List.mem_cons_of_mem _ hc)) b hbr

/-- **C4.** A successful `install` followed by `uninstall` of the same
reference (the database key the install stored the record under) leaves
the database without that key, and the personal bin directory holds no
entry named after any of the package's declared binaries.  The install
succeeds whenever the materialized source carries a parseable
`package.json`; the bin directory is assumed to hold no entry at the
binaries' basenames beforehand (the entries the claim speaks about are
the ones this install creates). -/
theorem mInstall_mUninstall (st : MState) (src : MSource) (force : Bool)
    (config : Package)
    (hconf : (msDir src).config = some config)
    (hclean : ∀ b ∈ config.binaries, st.bin.mget (basename b) = none) :
    (mInstall st src force).2 = none ∧
    (mUninstall (mInstall st src force).1 (mInstallKey src config)).2 = none ∧
    (mUninstall (mInstall st src force).1 (mInstallKey src config)).1.db.mget
        (mInstallKey src config) = none ∧
    ∀ b ∈ config.binaries,
      (mUninstall (mInstall st src force).1 (mInstallKey src config)).1.bin.mget
        (basename b) = none := by
  set dn := mInstallDirName src with hdn
  set config' := mInstallConfig src config with hcfg'
  set key := mInstallKey src config with hkey
  set staged := mInstallStaged st src config with hstaged
  set A := mCreateSymlinks staged config'.binaries dn force with hA
  have hbe : config'.binaries = config.binaries := mInstallConfig_binaries src config
  have F1 : mInstall st src force = ({ A with db := A.db.mset key config' }, none) := by
    unfold mInstall
    rw [hconf]
  have hstgsg : staged.sg.mget dn
      = some ⟨some config', (msDir src).files⟩ :=
    mInstallStaged_sg st src config hconf
  have F2 : A.sg.mget dn = some ⟨some config', (msDir src).files⟩ := by
    rw [hA, mCreateSymlinks_sg]
    exact hstgsg
  have F3 : ∀ b ∈ config.binaries, ∀ e,
      A.bin.mget (basename b) = some e →
      ∃ b', e = .sym .sg dn b' ∧ b' ∈ (msDir src).files := by
    intro b hb
    have hk0 : ∀ e, staged.bin.mget (basename b) = some e →
        ∃ b', e = MBinEntry.sym .sg dn b'
          ∧ b' ∈ (⟨some config', (msDir src).files⟩ : PDir).files := by
      intro e he
      rw [(mInstallStaged_fields st src config).1, hclean b hb] at he
      cases he
    exact mCreateSymlinks_shape config'.binaries staged dn force
      ⟨some config', (msDir src).files⟩ (basename b) hstgsg hk0
  set st1 : MState := { A with db := A.db.mset key config' } with hst1
  have F4 : st1.db.mget key = some config' := SMap.mget_mset_self _ _ _
  set R := mRemoveBinaryLinks st1 config'.binaries with hR
  have F5 : mUninstall st1 key =
      ({ sg := R.sg.mdel key, go := R.go.mdel key, bin := R.bin,
         db := R.db.mdel key }, none) := by
    unfold mUninstall
    rw [F4]
  have hlive : ∀ b ∈ config'.binaries, ∀ e,
      st1.bin.mget (basename b) = some e → mEntryLive st1 e = true := by
    intro b hb e he
    have hb' : b ∈ config.binaries := by rw [← hbe]; exact hb
    have he' : A.bin.mget (basename b) = some e := he
    obtain ⟨b', rfl, hbf⟩ := F3 b hb' e he'
    simp only [mEntryLive]
    have hsg1 : st1.sg.mget dn = some ⟨some config', (msDir src).files⟩ := F2
    rw [hsg1]
    exact decide_eq_true hbf
  have F6 : ∀ b ∈ config'.binaries, R.bin.mget (basename b) = none := by
    intro b hb
    rw [hR]
    exact mRemoveBinaryLinks_removes config'.binaries st1 hlive b hb
  refine ⟨?_, ?_, ?_, ?_⟩
  · rw [F1]
  · rw [F1]
    exact congrArg Prod.snd F5
  · rw [F1]
    rw [show mUninstall st1 key =
        ({ sg := R.sg.mdel key, go := R.go.mdel key, bin := R.bin,
           db := R.db.mdel key }, none) from F5]
    exact SMap.mget_mdel_self _ _
  · intro b hb
    rw [F1]
    rw [show mUninstall st1 key =
        ({ sg := R.sg.mdel key, go := R.go.mdel key, bin := R.bin,
           db := R.db.mdel key }, none) from F5]
    exact F6 b (by rw [hbe]; exact hb)

/-- A provider source for the witness: `alice`'s `eza` directory with a
parseable `package.json` and the single binary file `eza`. -/
def exMSrc : MSource :=
  .provider "alice" "eza"
    { config := some exCur, files := ["eza", "package.json"] }

/-- An empty monolithic state. -/
def exMSt : MState := { sg := [], go := [], bin := [], db := [] }

/-- Witness for C4 at a concrete provider install of `alice:eza`. -/
theorem mInstall_mUninstall_witness :
    (mInstall exMSt exMSrc false).2 = none ∧
    (mUninstall (mInstall exMSt exMSrc false).1 (mInstallKey exMSrc exCur)).2
      = none ∧
    (mUninstall (mInstall exMSt exMSrc false).1
        (mInstallKey exMSrc exCur)).1.db.mget (mInstallKey exMSrc exCur) = none ∧
    ∀ b ∈ exCur.binaries,
      (mUninstall (mInstall exMSt exMSrc false).1
          (mInstallKey exMSrc exCur)).1.bin.mget (basename b) = none :=
  mInstall_mUninstall exMSt exMSrc false exCur (by decide) (by decide)

/-! ### Path-prefix facts for the sync claim -/

theorem listPrefix_append (l t : List Char) : listPrefix l (l ++ t) = true := by
  induction l with
  | nil => rfl
  | cons c cs ih => simp [listPrefix, ih]

theorem listPrefix_sg_go (A B : List Char) :
    listPrefix ('/' :: 's' :: A) ('/' :: 'g' :: B) = false := by
  have h : (('s' : Char) == 'g') = false := by decide
  simp [listPrefix, h]

/-- The mirror root is a prefix of every path rendered under it. -/
theorem strPrefix_go_target (u d f : String) :
    strPrefix (goinfrePath u) (goinfrePath u ++ "/" ++ d ++ "/" ++ f) = true := by
  unfold strPrefix
  simp only [String.data_append, List.append_assoc]
  exact listPrefix_append _ _

/-- The persistent root is never a prefix of a path under the mirror
root: they differ at the second character. -/
theorem strPrefix_sg_target (u d f : String) :
    strPrefix (sgoinfrePath u) (goinfrePath u ++ "/" ++ d ++ "/" ++ f) = false := by
  unfold strPrefix sgoinfrePath goinfrePath
  simp only [String.data_append, List.append_assoc, List.cons_append]
  exact listPrefix_sg_go _ _

/-! ### Invariants of the sync loops -/

/-- The bin entry at `k` is a symlink into the mirror root. -/
def goShaped (m : SMap MBinEntry) (k : String) : Prop :=
  ∃ dn f, m.mget k = some (.sym .go dn f)

/-- No dangling persistent-root symlink sits at `k`: any `.sym .sg`
entry there is live. -/
def noDanglingSg (st : MState) (k : String) : Prop :=
  ∀ dn f, st.bin.mget k = some (.sym .sg dn f) →
    mEntryLive st (.sym .sg dn f) = true

theorem mEntryLive_sg_eq (st st' : MState) (h : st'.sg = st.sg) (dn f : String) :
    mEntryLive st' (.sym .sg dn f) = mEntryLive st (.sym .sg dn f) := by
  simp only [mEntryLive, h]

theorem mSyncBinaries_sg :
    ∀ (bs : List String) (st : MState) (dest : String),
      (mSyncBinaries st bs dest).sg = st.sg := by
  intro bs
  induction bs with
  | nil => intro st dest; rfl
  | cons b0 rest ih =>
    intro st dest
    simp only [mSyncBinaries]
    repeat' split
    all_goals exact ih _ _

theorem mSyncBinaries_go :
    ∀ (bs : List String) (st : MState) (dest : String),
      (mSyncBinaries st bs dest).go = st.go := by
  intro bs
  induction bs with
  | nil => intro st dest; rfl
  | cons b0 rest ih =>
    intro st dest
    simp only [mSyncBinaries]
    repeat' split
    all_goals exact ih _ _

theorem mSyncBinaries_db :
    ∀ (bs : List String) (st : MState) (dest : String),
      (mSyncBinaries st bs dest).db = st.db := by
  intro bs
  induction bs with
  | nil => intro st dest; rfl
  | cons b0 rest ih =>
    intro st dest
    simp only [mSyncBinaries]
    repeat' split
    all_goals exact ih _ _

theorem goShaped_mset_go (m : SMap MBinEntry) (k k' : String) (dn f : String)
    (h : goShaped m k) : goShaped (m.mset k' (.sym .go dn f)) k := by
  by_cases hk : k' = k
  · subst hk
    exact ⟨dn, f, SMap.mget_mset_self _ _ _⟩
  · obtain ⟨a, b, hab⟩ := h
    exact ⟨a, b, by rw [SMap.mget_mset_ne _ _ (fun hh => hk hh.symm)]; exact hab⟩

theorem mSyncBinaries_goShaped_preserve :
    ∀ (bs : List String) (st : MState) (dest k : String),
      goShaped st.bin k → goShaped (mSyncBinaries st bs dest).bin k := by
  intro bs
  induction bs with
  | nil => intro st dest k h; exact h
  | cons b0 rest ih =>
    intro st dest k h
    simp only [mSyncBinaries]
    split
    · split
      · exact ih _ dest k (goShaped_mset_go _ _ _ _ _ h)
      · exact ih st dest k h
    · exact ih _ dest k (goShaped_mset_go _ _ _ _ _ h)

theorem noDanglingSg_mset_go (st : MState) (k k' : String) (dn f : String)
    (h : noDanglingSg st k) :
    noDanglingSg { st with bin := st.bin.mset k' (.sym .go dn f) } k := by
  intro a b he
  simp only at he
  by_cases hk : k' = k
  · subst hk
    rw [SMap.mget_mset_self] at he
    cases he
  · rw [SMap.mget_mset_ne _ _ (fun hh => hk hh.symm)] at he
    have hle := mEntryLive_sg_eq st
      { st with bin := st.bin.mset k' (.sym .go dn f) } rfl a b
    rw [hle]
    exact h a b he

theorem mSyncBinaries_nds_preserve :
    ∀ (bs : List String) (st : MState) (dest k : String),
      noDanglingSg st k → noDanglingSg (mSyncBinaries st bs dest) k := by
  intro bs
  induction bs with
  | nil => intro st dest k h; exact h
  | cons b0 rest ih =>
    intro st dest k h
    simp only [mSyncBinaries]
    split
    · split
      · exact ih _ dest k (noDanglingSg_mset_go st k _ _ _ h)
      · exact ih st dest k h
    · exact ih _ dest k (noDanglingSg_mset_go st k _ _ _ h)

theorem mSyncBinaries_establishes :
    ∀ (bs : List String) (st : MState) (dest : String) (b : String),
      b ∈ bs → noDanglingSg st (basename b) →
      goShaped (mSyncBinaries st bs dest).bin (basename b) := by
  intro bs
  induction bs with
  | nil => intro st dest b hb; cases hb
  | cons b0 rest ih =>
    intro st dest b hb hnds
    have hwr : basename b0 = basename b →
        goShaped (mSyncBinaries
          { st with bin := st.bin.mset (basename b0) (.sym .go dest b0) }
          rest dest).bin (basename b) := by
      intro hk
      apply mSyncBinaries_goShaped_preserve
      show goShaped (st.bin.mset (basename b0) (.sym .go dest b0)) (basename b)
      rw [← hk]
      exact ⟨dest, b0, SMap.mget_mset_self _ _ _⟩
    have hbr : ¬ basename b0 = basename b → b ∈ rest := by
      intro hk
      rcases List.mem_cons.mp hb with h0 | hr
      · exact absurd (by rw [h0]) hk
      · exact hr
    simp only [mSyncBinaries]
    rcases hg : st.bin.mget (basename b0) with _ | e
    · by_cases hk : basename b0 = basename b
      · exact hwr hk
      · exact ih _ dest b (hbr hk)
          (noDanglingSg_mset_go st (basename b) (basename b0) dest b0 hnds)
    · dsimp only
      by_cases hl : mEntryLive st e = true
      · rw [if_pos hl]
        by_cases hk : basename b0 = basename b
        · exact hwr hk
        · exact ih _ dest b (hbr hk)
            (noDanglingSg_mset_go st (basename b) (basename b0) dest b0 hnds)
      · rw [if_neg hl]
        by_cases hk : basename b0 = basename b
        · cases e with
          | file => exact absurd rfl hl
          | sym r dn f =>
            cases r with
            | sg =>
              exfalso
              rw [hk] at hg
              exact hl (hnds dn f hg)
            | go =>
              apply mSyncBinaries_goShaped_preserve
              exact ⟨dn, f, by rw [← hk]; exact hg⟩
        · exact ih st dest b (hbr hk) hnds

theorem mSyncOne_sg (st : MState) (n : String) (c : Package) :
    (mSyncOne st n c).sg = st.sg := by
  unfold mSyncOne
  rcases st.sg.mget n with _ | d
  · rfl
  · rw [mSyncBinaries_sg]

theorem mSyncOne_go_other (st : MState) (n : String) (c : Package) (k : String)
    (h : n ≠ k) : (mSyncOne st n c).go.mget k = st.go.mget k := by
  unfold mSyncOne
  rcases st.sg.mget n with _ | d
  · rfl
  · rw [mSyncBinaries_go]
    exact SMap.mget_mset_ne _ _ (Ne.symm h)

theorem mSyncOne_goShaped_preserve (st : MState) (n : String) (c : Package)
    (k : String) (h : goShaped st.bin k) : goShaped (mSyncOne st n c).bin k := by
  unfold mSyncOne
  rcases st.sg.mget n with _ | d
  · exact h
  · exact mSyncBinaries_goShaped_preserve _ _ _ _ h

theorem mSyncOne_nds_preserve (st : MState) (n : String) (c : Package)
    (k : String) (h : noDanglingSg st k) : noDanglingSg (mSyncOne st n c) k := by
  unfold mSyncOne
  rcases st.sg.mget n with _ | d
  · exact h
  · apply mSyncBinaries_nds_preserve
    intro a b he
    have hle := mEntryLive_sg_eq st { st with go := st.go.mset n d } rfl a b
    rw [hle]
    exact h a b he

theorem mSyncList_sg :
    ∀ (L : List (String × Package)) (st : MState), (mSyncList st L).sg = st.sg := by
  intro L
  induction L with
  | nil => intro st; rfl
  | cons p rest ih =>
    intro st
    obtain ⟨n, c⟩ := p
    simp only [mSyncList]
    rw [ih, mSyncOne_sg]

theorem mSyncList_go_other :
    ∀ (L : List (String × Package)) (st : MState) (k : String),
      k ∉ L.map Prod.fst →
      (mSyncList st L).go.mget k = st.go.mget k := by
  intro L
  induction L with
  | nil => intro st k _; rfl
  | cons p rest ih =>
    intro st k hk
    obtain ⟨n, c⟩ := p
    simp only [List.map_cons, List.mem_cons, not_or] at hk
    simp only [mSyncList]
    rw [ih _ k hk.2, mSyncOne_go_other st n c k (fun hh => hk.1 hh.symm)]

theorem mSyncList_goShaped :
    ∀ (L : List (String × Package)) (st : MState) (k : String),
      goShaped st.bin k → goShaped (mSyncList st L).bin k := by
  intro L
  induction L with
  | nil => intro st k h; exact h
  | cons p rest ih =>
    intro st k h
    obtain ⟨n, c⟩ := p
    simp only [mSyncList]
    exact ih _ k (mSyncOne_goShaped_preserve st n c k h)

theorem mSyncList_go_missing :
    ∀ (L : List (String × Package)) (st : MState) (key : String),
      st.sg.mget key = none →
      (mSyncList st L).go.mget key = st.go.mget key := by
  intro L
  induction L with
  | nil => intro st key _; rfl
  | cons p rest ih =>
    intro st key hmiss
    obtain ⟨n, c⟩ := p
    simp only [mSyncList]
    have hsg : (mSyncOne st n c).sg = st.sg := mSyncOne_sg st n c
    rw [ih _ key (by rw [hsg]; exact hmiss)]
    by_cases hn : n = key
    · subst hn
      unfold mSyncOne
      rw [hmiss]
    · exact mSyncOne_go_other st n c key hn

theorem mSyncList_main :
    ∀ (L : List (String × Package)) (st : MState),
      (L.map Prod.fst).Nodup →
      ∀ key cfg, (key, cfg) ∈ L →
      (∀ b ∈ cfg.binaries, noDanglingSg st (basename b)) →
      ∀ d, st.sg.mget key = some d →
        (mSyncList st L).go.mget key = some d ∧
        ∀ b ∈ cfg.binaries, goShaped (mSyncList st L).bin (basename b) := by
  intro L
  induction L with
  | nil => intro st _ key cfg hmem; cases hmem
  | cons p rest ih =>
    intro st hnd key cfg hmem hnds d hsgl
    obtain ⟨n, c⟩ := p
    simp only [List.map_cons, List.nodup_cons] at hnd
    simp only [mSyncList]
    rcases List.mem_cons.mp hmem with heq | hr
    · obtain ⟨hn, hc⟩ := Prod.mk.injEq _ _ _ _ ▸ heq
      subst hn
      subst hc
      have hone : mSyncOne st key cfg
          = mSyncBinaries { st with go := st.go.mset key d } cfg.binaries key := by
        unfold mSyncOne
        rw [hsgl]
      constructor
      · rw [hone, mSyncList_go_other rest _ key hnd.1, mSyncBinaries_go]
        exact SMap.mget_mset_self _ _ _
      · intro b hb
        apply mSyncList_goShaped
        rw [hone]
        apply mSyncBinaries_establishes cfg.binaries _ key b hb
        intro a b' he
        have hle := mEntryLive_sg_eq st { st with go := st.go.mset key d } rfl a b'
        rw [hle]
        exact hnds b hb a b' he
    · have hnds' : ∀ b ∈ cfg.binaries, noDanglingSg (mSyncOne st n c) (basename b) :=
        fun b hb => mSyncOne_nds_preserve st n c (basename b) (hnds b hb)
      have hsgl' : (mSyncOne st n c).sg.mget key = some d := by
        rw [mSyncOne_sg]
        exact hsgl
      exact ih (mSyncOne st n c) hnd.2 key cfg hr hnds' d hsgl'

/-- **C9.** After `sync()`: every installed package whose
persistent-storage directory exists has been copied into the
fast-scratch mirror under its database key, and every binary symlink in
the personal bin directory named after one of its binaries points at a
path under the mirror root and not under the persistent root; every
installed package whose persistent source directory is missing is
skipped — sync completes and leaves no mirror entry for it.  The
personal bin directory is assumed to hold no dead symlink into the
persistent root at the relevant names (`existsSync` follows symlinks,
so `syncBinaries` cannot replace a dangling link). -/
theorem mSync_spec (u : String) (st : MState)
    (hnodup : (st.db.map Prod.fst).Nodup)
    (hlive : ∀ key cfg, (key, cfg) ∈ st.db → ∀ b ∈ cfg.binaries, ∀ e,
      st.bin.mget (basename b) = some e → mEntryLive st e = true) :
    ∀ key cfg, (key, cfg) ∈ st.db →
      (∀ d, st.sg.mget key = some d →
        (mSync st).go.mget key = some d ∧
        ∀ b ∈ cfg.binaries, ∃ e t,
          (mSync st).bin.mget (basename b) = some e ∧
          linkTargetPath u e = some t ∧
          strPrefix (goinfrePath u) t = true ∧
          strPrefix (sgoinfrePath u) t = false) ∧
      (st.sg.mget key = none → (mSync st).go.mget key = none) := by
  intro key cfg hmem
  have hnds : ∀ b ∈ cfg.binaries, noDanglingSg { st with go := [] } (basename b) := by
    intro b hb dn f he
    have hle := mEntryLive_sg_eq st { st with go := [] } rfl dn f
    rw [hle]
    exact hlive key cfg hmem b hb _ he
  constructor
  · intro d hsgl
    have h0 := mSyncList_main st.db { st with go := [] } hnodup key cfg hmem hnds d hsgl
    refine ⟨h0.1, ?_⟩
    intro b hb
    obtain ⟨dn, f, hget⟩ := h0.2 b hb
    exact ⟨.sym .go dn f, goinfrePath u ++ "/" ++ dn ++ "/" ++ f, hget, rfl,
      strPrefix_go_target u dn f, strPrefix_sg_target u dn f⟩
  · intro hnone
    have h1 := mSyncList_go_missing st.db { st with go := [] } key hnone
    show (mSyncList { st with go := [] } st.db).go.mget key = none
    rw [h1]
    rfl

/-- A state for the C9 witness: `alice:eza` installed with its
directory present in the persistent root, and its bin symlink pointing
into the persistent root (the post-install situation). -/
def exSyncSt : MState :=
  { sg := [("alice:eza", { config := some exCur, files := ["eza", "package.json"] })],
    go := [],
    bin := [("eza", .sym .sg "alice:eza" "eza")],
    db := [("alice:eza", exCur)] }

/-- Witness for C9 at a concrete one-package state. -/
theorem mSync_spec_witness :
    (mSync exSyncSt).go.mget "alice:eza"
        = some { config := some exCur, files := ["eza", "package.json"] } ∧
    ∀ b ∈ exCur.binaries, ∃ e t,
      (mSync exSyncSt).bin.mget (basename b) = some e ∧
      linkTargetPath "me" e = some t ∧
      strPrefix (goinfrePath "me") t = true ∧
      strPrefix (sgoinfrePath "me") t = false :=
  (mSync_spec "me" exSyncSt (by decide)
    (by
      intro key cfg hmem b hb e he
      simp only [exSyncSt, List.mem_singleton, Prod.mk.injEq] at hmem
      obtain ⟨h1, h2⟩ := hmem
      subst h1
      subst h2
      simp only [exCur, List.mem_singleton] at hb
      subst hb
      have hev : exSyncSt.bin.mget (basename "eza")
          = some (MBinEntry.sym .sg "alice:eza" "eza") := rfl
      rw [hev] at he
      cases he
      decide)
    "alice:eza" exCur (by decide)).1
    { config := some exCur, files := ["eza", "package.json"] } (by decide)

end Frog
